import Mathlib

/-!
Shallow embedding of `src/task3_modes.py`: a Feistel block cipher over
128-bit blocks whose round function and key schedule are built from
BLAKE2s, the CBC and CFB modes of operation, and the single-bit
error-propagation analyzers.  Machine integers are modelled as `Nat`
with explicit masking/mod where the Python code masks or where the
fixed-width `to_bytes` conversions of Python bound the values.
-/

/-- Size constant from the source: `BLOCK_SIZE = 128`. -/
def BLOCK_SIZE : Nat := 128

/-- Size constant from the source: `HALF_BLOCK = BLOCK_SIZE // 2`. -/
def HALF_BLOCK : Nat := BLOCK_SIZE / 2

/-- Mask constant from the source: `HALF_MASK = (1 << HALF_BLOCK) - 1`. -/
def HALF_MASK : Nat := (1 <<< HALF_BLOCK) - 1

/-- Round-count constant from the source: `ROUNDS = 8`.  It is an `Int`
because the Python parameter `rounds: int` may be negative. -/
def ROUNDS : Int := 8

/-- Bit index flipped by the analyzers: `BIT_TO_FLIP = 17` (0-indexed from
the least-significant bit). -/
def BIT_TO_FLIP : Nat := 17

/-- Big-endian byte list of `n`, `len` bytes long; models the Python
call `n.to_bytes(len, "big")` on its valid domain `n < 256 ^ len` (the
only domain on which the repository calls it). -/
def toBytesBE (len n : Nat) : List Nat :=
  (List.range len).map (fun i => n >>> (8 * (len - 1 - i)) % 256)

/-- Big-endian integer value of a byte list; models the Python call
`int.from_bytes(bytes, "big")`. -/
def fromBytesBE (bs : List Nat) : Nat :=
  bs.foldl (fun acc b => acc * 256 + b) 0

/-- Addition modulo 2^32, the word operation of BLAKE2s. -/
def add32 (a b : Nat) : Nat := (a + b) % 4294967296

/-- Right rotation of a 32-bit word. -/
def rotr32 (x n : Nat) : Nat := ((x >>> n) ||| (x <<< (32 - n))) % 4294967296

/-- Byte-order reversal of a 32-bit word. -/
def bswap32 (x : Nat) : Nat :=
  ((x % 256) <<< 24) ||| ((x >>> 8 % 256) <<< 16) |||
    ((x >>> 16 % 256) <<< 8) ||| (x >>> 24)

/-- Initialization vector of BLAKE2s (RFC 7693 section 2.6). -/
def blakeIV : List Nat :=
  [0x6A09E667, 0xBB67AE85, 0x3C6EF372, 0xA54FF53A,
   0x510E527F, 0x9B05688C, 0x1F83D9AB, 0x5BE0CD19]

/-- Message-word permutations of BLAKE2s (RFC 7693 section 2.7). -/
def blakeSigma : List (List Nat) :=
  [[0, 1, 2, 3, 4, 5, 6, 7, 8, 9, 10, 11, 12, 13, 14, 15],
   [14, 10, 4, 8, 9, 15, 13, 6, 1, 12, 0, 2, 11, 7, 5, 3],
   [11, 8, 12, 0, 5, 2, 15, 13, 10, 14, 3, 6, 7, 1, 9, 4],
   [7, 9, 3, 1, 13, 12, 11, 14, 2, 6, 5, 10, 4, 0, 15, 8],
   [9, 0, 5, 7, 2, 4, 10, 15, 14, 1, 11, 12, 6, 8, 3, 13],
   [2, 12, 6, 10, 0, 11, 8, 3, 4, 13, 7, 5, 15, 14, 1, 9],
   [12, 5, 1, 15, 14, 13, 4, 10, 0, 7, 6, 3, 9, 2, 8, 11],
   [13, 11, 7, 14, 12, 1, 3, 9, 5, 0, 15, 4, 8, 6, 2, 10],
   [6, 15, 14, 9, 11, 3, 0, 8, 12, 2, 13, 7, 1, 4, 10, 5],
   [10, 2, 8, 4, 7, 6, 1, 5, 15, 11, 9, 14, 3, 12, 13, 0]]

/-- Quarter-round G of BLAKE2s (RFC 7693 section 3.1), acting on the
16-word working vector `v` at positions `a b c d` with message words
`x y`. -/
def gmix (v : List Nat) (a b c d x y : Nat) : List Nat :=
  let va1 := add32 (add32 (v.getD a 0) (v.getD b 0)) x
  let vd1 := rotr32 (v.getD d 0 ^^^ va1) 16
  let vc1 := add32 (v.getD c 0) vd1
  let vb1 := rotr32 (v.getD b 0 ^^^ vc1) 12
  let va2 := add32 (add32 va1 vb1) y
  let vd2 := rotr32 (vd1 ^^^ va2) 8
  let vc2 := add32 vc1 vd2
  let vb2 := rotr32 (vb1 ^^^ vc2) 7
  (((v.set a va2).set b vb2).set c vc2).set d vd2

/-- Full round of BLAKE2s: eight G applications with the message words
chosen by the sigma permutation `s` of that round. -/
def blakeRound (m v s : List Nat) : List Nat :=
  let mv := fun i => m.getD (s.getD i 0) 0
  let v1 := gmix v 0 4 8 12 (mv 0) (mv 1)
  let v2 := gmix v1 1 5 9 13 (mv 2) (mv 3)
  let v3 := gmix v2 2 6 10 14 (mv 4) (mv 5)
  let v4 := gmix v3 3 7 11 15 (mv 6) (mv 7)
  let v5 := gmix v4 0 5 10 15 (mv 8) (mv 9)
  let v6 := gmix v5 1 6 11 12 (mv 10) (mv 11)
  let v7 := gmix v6 2 7 8 13 (mv 12) (mv 13)
  gmix v7 3 4 9 14 (mv 14) (mv 15)

/-- Compression function F of BLAKE2s (RFC 7693 section 3.2) for a final
message block: `h` is the 8-word state, `m` the 16-word message block,
`t` the byte counter; the final-block flag is always set because the
repository only hashes single-block messages. -/
def blakeCompress (h m : List Nat) (t : Nat) : List Nat :=
  let v0 := h ++ blakeIV
  let v1 := v0.set 12 (v0.getD 12 0 ^^^ t % 4294967296)
  let v2 := v1.set 13 (v1.getD 13 0 ^^^ t / 4294967296)
  let v3 := v2.set 14 (v2.getD 14 0 ^^^ 0xFFFFFFFF)
  let vf := blakeSigma.foldl (fun v s => blakeRound m v s) v3
  (List.range 8).map (fun i => h.getD i 0 ^^^ vf.getD i 0 ^^^ vf.getD (i + 8) 0)

/-- Initial state of unkeyed BLAKE2s with digest size 8: `h0 = IV0 XOR
0x01010008` (parameter block packs digest length 8, key length 0,
fanout 1, depth 1), the remaining words are the IV. -/
def blakeH0 : List Nat :=
  (0x6A09E667 ^^^ 0x01010008) :: blakeIV.drop 1

/-- Model of the Python call `hashlib.blake2s(data, digest_size=8).digest()`
read back with `int.from_bytes(-, "big")`, for single-block messages
(`data.length` at most 64 bytes — every call in the source hashes 18 or
16 bytes).  The little-endian 4-byte words of the 8-byte digest are the
first two state words, hence the byte swaps. -/
def blake2s8be (data : List Nat) : Nat :=
  let m := (List.range 16).map (fun i =>
    data.getD (4 * i) 0 + 256 * data.getD (4 * i + 1) 0 +
      65536 * data.getD (4 * i + 2) 0 + 16777216 * data.getD (4 * i + 3) 0)
  let h := blakeCompress blakeH0 m data.length
  bswap32 (h.getD 0 0) * 4294967296 + bswap32 (h.getD 1 0)

/-- Model of `derive_subkeys`: expand the 128-bit key into per-round
subkeys via BLAKE2s.  `rounds` is an `Int` as in Python; `List.range
rounds.toNat` models `range(rounds)`, which is empty for `rounds <= 0`. -/
def derive_subkeys (key : Nat) (rounds : Int) : List Nat :=
  let seed := toBytesBE 16 key
  (List.range rounds.toNat).map (fun counter =>
    blake2s8be (seed ++ toBytesBE 2 counter))

/-- Model of `round_function`: non-linear mixing used inside the Feistel
structure. -/
def round_function (half_block subkey : Nat) : Nat :=
  blake2s8be (toBytesBE 8 half_block ++ toBytesBE 8 subkey)

/-- Model of `encrypt_block`: Feistel network encryption producing a
128-bit permutation. -/
def encrypt_block (block key : Nat) : Nat :=
  let left := block >>> HALF_BLOCK &&& HALF_MASK
  let right := block &&& HALF_MASK
  let p := (derive_subkeys key ROUNDS).foldl
    (fun (p : Nat × Nat) subkey =>
      (p.2, (p.1 ^^^ round_function p.2 subkey) &&& HALF_MASK))
    (left, right)
  ((p.1 &&& HALF_MASK) <<< HALF_BLOCK) ||| (p.2 &&& HALF_MASK)

/-- Model of `decrypt_block`: inverse of `encrypt_block`, iterating the
subkeys in reverse with the inverted round update. -/
def decrypt_block (block key : Nat) : Nat :=
  let left := block >>> HALF_BLOCK &&& HALF_MASK
  let right := block &&& HALF_MASK
  let p := (derive_subkeys key ROUNDS).reverse.foldl
    (fun (p : Nat × Nat) subkey =>
      ((p.2 ^^^ round_function p.1 subkey) &&& HALF_MASK, p.1))
    (left, right)
  ((p.1 &&& HALF_MASK) <<< HALF_BLOCK) ||| (p.2 &&& HALF_MASK)

/-- UTF-8 bytes of a single character, as produced by the Python method
`str.encode("utf-8")` (Lean `Char` excludes surrogates, exactly the
code points Python refuses to encode). -/
def utf8Bytes (c : Char) : List Nat :=
  let n := c.toNat
  if n < 0x80 then [n]
  else if n < 0x800 then [0xC0 ||| n >>> 6, 0x80 ||| (n &&& 0x3F)]
  else if n < 0x10000 then
    [0xE0 ||| n >>> 12, 0x80 ||| (n >>> 6 &&& 0x3F), 0x80 ||| (n &&& 0x3F)]
  else
    [0xF0 ||| n >>> 18, 0x80 ||| (n >>> 12 &&& 0x3F),
     0x80 ||| (n >>> 6 &&& 0x3F), 0x80 ||| (n &&& 0x3F)]

/-- UTF-8 encoding of a text, modelled as a list of characters. -/
def encodeUtf8 (text : List Char) : List Nat :=
  text.foldr (fun c acc => utf8Bytes c ++ acc) []

/-- Model of `to_block`: encode the text as UTF-8, reject it when longer
than 16 bytes (Python raises `ValueError`, modelled as `none`), else
right-pad with zero bytes to 16 bytes (`ljust`) and read big-endian. -/
def to_block (text : List Char) : Option Nat :=
  let data := encodeUtf8 text
  if data.length > 16 then none
  else some (fromBytesBE (data ++ List.replicate (16 - data.length) 0))

/-- Model of `flip_bit`: XOR the value with the chosen power of two. -/
def flip_bit (value bit_index : Nat) : Nat := value ^^^ (1 <<< bit_index)

/-- Population count by fuelled halving; the fuel `n` always suffices
because the binary length of `n` is at most `n`. -/
def bitCountAux : Nat → Nat → Nat
  | 0, _ => 0
  | _ + 1, 0 => 0
  | fuel + 1, n + 1 => (n + 1) % 2 + bitCountAux fuel ((n + 1) / 2)

/-- Number of set bits of `n`; models the Python method `int.bit_count`. -/
def bitCount (n : Nat) : Nat := bitCountAux n n

/-- Model of `bit_diff`: Hamming distance `(a ^ b).bit_count()`. -/
def bit_diff (a b : Nat) : Nat := bitCount (a ^^^ b)

/-- Model of `cbc_encrypt`.  The loop state `prev` (initially the IV,
then the previous ciphertext block) is threaded through the third
argument. -/
def cbc_encrypt : List Nat → Nat → Nat → List Nat
  | [], _, _ => []
  | block :: rest, key, prev =>
    let c := encrypt_block (block ^^^ prev) key
    c :: cbc_encrypt rest key c

/-- Model of `cbc_decrypt`.  The loop state `prev` (initially the IV,
then the previous ciphertext block) is threaded through the third
argument. -/
def cbc_decrypt : List Nat → Nat → Nat → List Nat
  | [], _, _ => []
  | block :: rest, key, prev =>
    let p := decrypt_block block key ^^^ prev
    p :: cbc_decrypt rest key block

/-- Model of `cfb_encrypt`.  The loop state `feedback` (initially the
IV, then the previous ciphertext block) is threaded through the third
argument. -/
def cfb_encrypt : List Nat → Nat → Nat → List Nat
  | [], _, _ => []
  | block :: rest, key, feedback =>
    let keystream := encrypt_block feedback key
    let c := block ^^^ keystream
    c :: cfb_encrypt rest key c

/-- Model of `cfb_decrypt`.  The loop state `feedback` (initially the
IV, then the previous ciphertext block) is threaded through the third
argument.  Note that it calls `encrypt_block`, never `decrypt_block`. -/
def cfb_decrypt : List Nat → Nat → Nat → List Nat
  | [], _, _ => []
  | block :: rest, key, feedback =>
    let keystream := encrypt_block feedback key
    let p := block ^^^ keystream
    p :: cfb_decrypt rest key block

/-- Model of the dataclass `ModeReport` (the `render` method is
presentation-only and not modelled). -/
structure ModeReport where
  mode : String
  bit_flip_index : Nat
  p1_diff : Nat
  p2_diff : Nat
  explanation : String

/-- Explanatory prose of `analyze_cbc` (apostrophe characters elided). -/
def cbcExplanation : String :=
  "flip sits inside Dk(C1), so diffusion destroys essentially the whole block.\nonly the XOR with C1 handles P2, so a single bit error leaks straight through."

/-- Explanatory prose of `analyze_cfb` (apostrophe characters elided). -/
def cfbExplanation : String :=
  "C1 feeds P1 via XOR only, so the corruption remains confined to that bit.\nC1 is the feedback input to Ek for block 2, so the keystream changes everywhere."

/-- Model of `analyze_cbc`.  The Python body indexes `c_blocks[0]`,
`c_blocks[1]` and the two decrypted lists at 0 and 1; a failing index
raises `IndexError`, modelled by propagating `none`. -/
def analyze_cbc (key iv : Nat) (p_blocks : List Nat) : Option ModeReport :=
  let c_blocks := cbc_encrypt p_blocks key iv
  let clean_plain := cbc_decrypt c_blocks key iv
  match c_blocks.get? 0, c_blocks.get? 1 with
  | some c0, some c1 =>
    let corrupted_c1 := flip_bit c0 BIT_TO_FLIP
    let corrupted_plain := cbc_decrypt [corrupted_c1, c1] key iv
    match clean_plain.get? 0, clean_plain.get? 1,
        corrupted_plain.get? 0, corrupted_plain.get? 1 with
    | some q0, some q1, some r0, some r1 =>
      some ⟨"CBC mode", BIT_TO_FLIP, bit_diff q0 r0, bit_diff q1 r1,
        cbcExplanation⟩
    | _, _, _, _ => none
  | _, _ => none

/-- Model of `analyze_cfb`, structured like `analyze_cbc`. -/
def analyze_cfb (key iv : Nat) (p_blocks : List Nat) : Option ModeReport :=
  let c_blocks := cfb_encrypt p_blocks key iv
  let clean_plain := cfb_decrypt c_blocks key iv
  match c_blocks.get? 0, c_blocks.get? 1 with
  | some c0, some c1 =>
    let corrupted_c1 := flip_bit c0 BIT_TO_FLIP
    let corrupted_plain := cfb_decrypt [corrupted_c1, c1] key iv
    match clean_plain.get? 0, clean_plain.get? 1,
        corrupted_plain.get? 0, corrupted_plain.get? 1 with
    | some q0, some q1, some r0, some r1 =>
      some ⟨"CFB mode", BIT_TO_FLIP, bit_diff q0 r0, bit_diff q1 r1,
        cfbExplanation⟩
    | _, _, _, _ => none
  | _, _ => none

/-- CFB decryption transcribed from the words of the specification
(section 4.4): maintain `feedback = IV` initially; for each block,
`keystream = encrypt_block(feedback, key)`, output `c XOR keystream`,
then `feedback` becomes the ciphertext block just consumed.  The
specification mandates the encrypt direction of the block primitive
here; this definition exists to be compared with `cfb_decrypt`. -/
def cfb_decrypt_spec (blocks : List Nat) (key iv : Nat) : List Nat :=
  (blocks.foldl
    (fun (st : List Nat × Nat) c =>
      let keystream := encrypt_block st.2 key
      (st.1 ++ [c ^^^ keystream], c))
    ([], iv)).1

/-! Arithmetic facts about the half-block mask and the recombination of
halves. -/

theorem and_half_mask (x : Nat) : x &&& HALF_MASK = x % 2 ^ 64 := by
  have h : HALF_MASK = 2 ^ 64 - 1 := by decide
  rw [h, Nat.and_pow_two_sub_one_eq_mod]

theorem mask_lt (x : Nat) : x &&& HALF_MASK < 2 ^ 64 := by
  rw [and_half_mask]
  exact Nat.mod_lt _ (by norm_num)

theorem shiftRight_half (x : Nat) : x >>> HALF_BLOCK = x / 2 ^ 64 := by
  have h : HALF_BLOCK = 64 := by decide
  rw [h, Nat.shiftRight_eq_div_pow]

theorem mask_xor_mask (a b : Nat) :
    ((a &&& HALF_MASK) ^^^ b) &&& HALF_MASK = (a ^^^ b) &&& HALF_MASK := by
  rw [Nat.and_xor_distrib_right, Nat.and_xor_distrib_right, Nat.and_assoc,
    Nat.and_self]

theorem combine_eq (l r : Nat) (hl : l < 2 ^ 64) (hr : r < 2 ^ 64) :
    ((l &&& HALF_MASK) <<< HALF_BLOCK) ||| (r &&& HALF_MASK) = 2 ^ 64 * l + r := by
  have hb : HALF_BLOCK = 64 := by decide
  rw [and_half_mask, and_half_mask, Nat.mod_eq_of_lt hl, Nat.mod_eq_of_lt hr,
    hb, Nat.shiftLeft_eq, Nat.mul_comm l (2 ^ 64)]
  exact (Nat.mul_add_lt_is_or hr l).symm

theorem combine_lt (l r : Nat) (hl : l < 2 ^ 64) (hr : r < 2 ^ 64) :
    2 ^ 64 * l + r < 2 ^ 128 := by
  calc 2 ^ 64 * l + r < 2 ^ 64 * l + 2 ^ 64 := Nat.add_lt_add_left hr _
    _ = 2 ^ 64 * (l + 1) := by ring
    _ ≤ 2 ^ 64 * 2 ^ 64 := Nat.mul_le_mul_left _ (Nat.succ_le_of_lt hl)
    _ = 2 ^ 128 := by norm_num

theorem split_hi (l r : Nat) (hl : l < 2 ^ 64) (hr : r < 2 ^ 64) :
    (2 ^ 64 * l + r) >>> HALF_BLOCK &&& HALF_MASK = l := by
  rw [and_half_mask, shiftRight_half, Nat.mul_add_div (by norm_num),
    Nat.div_eq_of_lt hr, Nat.add_zero, Nat.mod_eq_of_lt hl]

theorem split_lo (l r : Nat) (hr : r < 2 ^ 64) :
    (2 ^ 64 * l + r) &&& HALF_MASK = r := by
  rw [and_half_mask, Nat.mul_add_mod, Nat.mod_eq_of_lt hr]

/-! Inversion of the Feistel round folds: folding the decrypt update over
the reversed subkey list undoes folding the encrypt update over the
list, and conversely, whenever both halves fit in 64 bits. -/

theorem foldE_lt (ks : List Nat) : ∀ l r : Nat, l < 2 ^ 64 → r < 2 ^ 64 →
    (ks.foldl (fun (p : Nat × Nat) subkey =>
      (p.2, (p.1 ^^^ round_function p.2 subkey) &&& HALF_MASK)) (l, r)).1 < 2 ^ 64 ∧
    (ks.foldl (fun (p : Nat × Nat) subkey =>
      (p.2, (p.1 ^^^ round_function p.2 subkey) &&& HALF_MASK)) (l, r)).2 < 2 ^ 64 := by
  induction ks with
  | nil => exact fun l r hl hr => ⟨hl, hr⟩
  | cons k ks ih =>
    intro l r hl hr
    simp only [List.foldl_cons]
    exact ih r _ hr (mask_lt _)

theorem foldD_lt (ks : List Nat) : ∀ l r : Nat, l < 2 ^ 64 → r < 2 ^ 64 →
    (ks.foldl (fun (p : Nat × Nat) subkey =>
      ((p.2 ^^^ round_function p.1 subkey) &&& HALF_MASK, p.1)) (l, r)).1 < 2 ^ 64 ∧
    (ks.foldl (fun (p : Nat × Nat) subkey =>
      ((p.2 ^^^ round_function p.1 subkey) &&& HALF_MASK, p.1)) (l, r)).2 < 2 ^ 64 := by
  induction ks with
  | nil => exact fun l r hl hr => ⟨hl, hr⟩
  | cons k ks ih =>
    intro l r hl hr
    simp only [List.foldl_cons]
    exact ih _ l (mask_lt _) hl

theorem foldE_foldD (ks : List Nat) : ∀ l r : Nat, l < 2 ^ 64 → r < 2 ^ 64 →
    ks.reverse.foldl (fun (p : Nat × Nat) subkey =>
        ((p.2 ^^^ round_function p.1 subkey) &&& HALF_MASK, p.1))
      (ks.foldl (fun (p : Nat × Nat) subkey =>
        (p.2, (p.1 ^^^ round_function p.2 subkey) &&& HALF_MASK)) (l, r)) = (l, r) := by
  induction ks with
  | nil => exact fun l r _ _ => rfl
  | cons k ks ih =>
    intro l r hl hr
    simp only [List.foldl_cons, List.reverse_cons, List.foldl_append,
      List.foldl_nil]
    rw [ih r ((l ^^^ round_function r k) &&& HALF_MASK) hr (mask_lt _)]
    have h1 : ((l ^^^ round_function r k) &&& HALF_MASK ^^^ round_function r k)
        &&& HALF_MASK = l := by
      rw [mask_xor_mask, Nat.xor_assoc, Nat.xor_self, Nat.xor_zero,
        and_half_mask, Nat.mod_eq_of_lt hl]
    simp only [h1]

theorem foldD_foldE (ks : List Nat) : ∀ l r : Nat, l < 2 ^ 64 → r < 2 ^ 64 →
    ks.foldl (fun (p : Nat × Nat) subkey =>
        (p.2, (p.1 ^^^ round_function p.2 subkey) &&& HALF_MASK))
      (ks.reverse.foldl (fun (p : Nat × Nat) subkey =>
        ((p.2 ^^^ round_function p.1 subkey) &&& HALF_MASK, p.1)) (l, r)) = (l, r) := by
  induction ks with
  | nil => exact fun l r _ _ => rfl
  | cons k ks ih =>
    intro l r hl hr
    simp only [List.foldl_cons, List.reverse_cons, List.foldl_append,
      List.foldl_nil]
    have hs := foldD_lt ks.reverse l r hl hr
    set s := ks.reverse.foldl (fun (p : Nat × Nat) subkey =>
      ((p.2 ^^^ round_function p.1 subkey) &&& HALF_MASK, p.1)) (l, r) with hsdef
    have h1 : ((s.2 ^^^ round_function s.1 k) &&& HALF_MASK ^^^
        round_function s.1 k) &&& HALF_MASK = s.2 := by
      rw [mask_xor_mask, Nat.xor_assoc, Nat.xor_self, Nat.xor_zero,
        and_half_mask, Nat.mod_eq_of_lt hs.2]
    simp only [h1]
    rw [show (s.1, s.2) = s from rfl, hsdef]
    exact ih l r hl hr

/-! Round trips and width bound of the single-block engine. -/

theorem dec_enc (b key : Nat) (hb : b < 2 ^ 128) :
    decrypt_block (encrypt_block b key) key = b := by
  have hl0 : b >>> HALF_BLOCK &&& HALF_MASK < 2 ^ 64 := mask_lt _
  have hr0 : b &&& HALF_MASK < 2 ^ 64 := mask_lt _
  simp only [encrypt_block, decrypt_block]
  have hq := foldE_lt (derive_subkeys key ROUNDS) _ _ hl0 hr0
  set q := (derive_subkeys key ROUNDS).foldl (fun (p : Nat × Nat) subkey =>
    (p.2, (p.1 ^^^ round_function p.2 subkey) &&& HALF_MASK))
    (b >>> HALF_BLOCK &&& HALF_MASK, b &&& HALF_MASK) with hqdef
  rw [combine_eq q.1 q.2 hq.1 hq.2, split_hi q.1 q.2 hq.1 hq.2,
    split_lo q.1 q.2 hq.2]
  rw [show (q.1, q.2) = q from rfl, hqdef]
  rw [foldE_foldD (derive_subkeys key ROUNDS) _ _ hl0 hr0]
  rw [combine_eq _ _ hl0 hr0, and_half_mask, and_half_mask, shiftRight_half]
  have hdiv : b / 2 ^ 64 < 2 ^ 64 := by
    apply Nat.div_lt_of_lt_mul
    calc b < 2 ^ 128 := hb
      _ = 2 ^ 64 * 2 ^ 64 := by norm_num
  rw [Nat.mod_eq_of_lt hdiv]
  exact Nat.div_add_mod b (2 ^ 64)

theorem enc_dec (b key : Nat) (hb : b < 2 ^ 128) :
    encrypt_block (decrypt_block b key) key = b := by
  have hl0 : b >>> HALF_BLOCK &&& HALF_MASK < 2 ^ 64 := mask_lt _
  have hr0 : b &&& HALF_MASK < 2 ^ 64 := mask_lt _
  simp only [encrypt_block, decrypt_block]
  have hq := foldD_lt (derive_subkeys key ROUNDS).reverse _ _ hl0 hr0
  set q := (derive_subkeys key ROUNDS).reverse.foldl (fun (p : Nat × Nat) subkey =>
    ((p.2 ^^^ round_function p.1 subkey) &&& HALF_MASK, p.1))
    (b >>> HALF_BLOCK &&& HALF_MASK, b &&& HALF_MASK) with hqdef
  rw [combine_eq q.1 q.2 hq.1 hq.2, split_hi q.1 q.2 hq.1 hq.2,
    split_lo q.1 q.2 hq.2]
  rw [show (q.1, q.2) = q from rfl, hqdef]
  rw [foldD_foldE (derive_subkeys key ROUNDS) _ _ hl0 hr0]
  rw [combine_eq _ _ hl0 hr0, and_half_mask, and_half_mask, shiftRight_half]
  have hdiv : b / 2 ^ 64 < 2 ^ 64 := by
    apply Nat.div_lt_of_lt_mul
    calc b < 2 ^ 128 := hb
      _ = 2 ^ 64 * 2 ^ 64 := by norm_num
  rw [Nat.mod_eq_of_lt hdiv]
  exact Nat.div_add_mod b (2 ^ 64)

theorem encrypt_block_lt (b key : Nat) : encrypt_block b key < 2 ^ 128 := by
  simp only [encrypt_block]
  have hq := foldE_lt (derive_subkeys key ROUNDS) (b >>> HALF_BLOCK &&& HALF_MASK)
    (b &&& HALF_MASK) (mask_lt _) (mask_lt _)
  set q := (derive_subkeys key ROUNDS).foldl (fun (p : Nat × Nat) subkey =>
    (p.2, (p.1 ^^^ round_function p.2 subkey) &&& HALF_MASK))
    (b >>> HALF_BLOCK &&& HALF_MASK, b &&& HALF_MASK) with hqdef
  rw [combine_eq q.1 q.2 hq.1 hq.2]
  exact combine_lt q.1 q.2 hq.1 hq.2

theorem decrypt_block_lt (b key : Nat) : decrypt_block b key < 2 ^ 128 := by
  simp only [decrypt_block]
  have hq := foldD_lt (derive_subkeys key ROUNDS).reverse (b >>> HALF_BLOCK &&& HALF_MASK)
    (b &&& HALF_MASK) (mask_lt _) (mask_lt _)
  set q := (derive_subkeys key ROUNDS).reverse.foldl (fun (p : Nat × Nat) subkey =>
    ((p.2 ^^^ round_function p.1 subkey) &&& HALF_MASK, p.1))
    (b >>> HALF_BLOCK &&& HALF_MASK, b &&& HALF_MASK) with hqdef
  rw [combine_eq q.1 q.2 hq.1 hq.2]
  exact combine_lt q.1 q.2 hq.1 hq.2

/-! Round trips and width bounds of the chaining modes. -/

theorem cbc_roundtrip_aux (blocks : List Nat) : ∀ key prev : Nat,
    prev < 2 ^ 128 → (∀ b ∈ blocks, b < 2 ^ 128) →
    cbc_decrypt (cbc_encrypt blocks key prev) key prev = blocks := by
  induction blocks with
  | nil => intros; rfl
  | cons b bs ih =>
    intro key prev hprev hmem
    simp only [cbc_encrypt, cbc_decrypt]
    rw [dec_enc _ _ (Nat.xor_lt_two_pow (hmem b (by simp)) hprev),
      Nat.xor_assoc, Nat.xor_self, Nat.xor_zero,
      ih key _ (encrypt_block_lt _ _) (fun x hx => hmem x (by simp [hx]))]

theorem cfb_roundtrip_aux (blocks : List Nat) : ∀ key feedback : Nat,
    cfb_decrypt (cfb_encrypt blocks key feedback) key feedback = blocks := by
  induction blocks with
  | nil => intros; rfl
  | cons b bs ih =>
    intro key feedback
    simp only [cfb_encrypt, cfb_decrypt]
    rw [Nat.xor_assoc, Nat.xor_self, Nat.xor_zero, ih]

theorem cbc_encrypt_mem_lt (blocks : List Nat) : ∀ key prev : Nat,
    ∀ c ∈ cbc_encrypt blocks key prev, c < 2 ^ 128 := by
  induction blocks with
  | nil => intro key prev c hc; simp [cbc_encrypt] at hc
  | cons b bs ih =>
    intro key prev c hc
    simp only [cbc_encrypt, List.mem_cons] at hc
    rcases hc with hc | hc
    · exact hc ▸ encrypt_block_lt _ _
    · exact ih key _ c hc

theorem cbc_decrypt_mem_lt (blocks : List Nat) : ∀ key prev : Nat,
    prev < 2 ^ 128 → (∀ b ∈ blocks, b < 2 ^ 128) →
    ∀ p ∈ cbc_decrypt blocks key prev, p < 2 ^ 128 := by
  induction blocks with
  | nil => intro key prev _ _ p hp; simp [cbc_decrypt] at hp
  | cons b bs ih =>
    intro key prev hprev hmem p hp
    simp only [cbc_decrypt, List.mem_cons] at hp
    rcases hp with hp | hp
    · exact hp ▸ Nat.xor_lt_two_pow (decrypt_block_lt _ _) hprev
    · exact ih key b (hmem b (by simp)) (fun x hx => hmem x (by simp [hx])) p hp

theorem cfb_encrypt_mem_lt (blocks : List Nat) : ∀ key feedback : Nat,
    (∀ b ∈ blocks, b < 2 ^ 128) →
    ∀ c ∈ cfb_encrypt blocks key feedback, c < 2 ^ 128 := by
  induction blocks with
  | nil => intro key feedback _ c hc; simp [cfb_encrypt] at hc
  | cons b bs ih =>
    intro key feedback hmem c hc
    simp only [cfb_encrypt, List.mem_cons] at hc
    rcases hc with hc | hc
    · exact hc ▸ Nat.xor_lt_two_pow (hmem b (by simp)) (encrypt_block_lt _ _)
    · exact ih key _ (fun x hx => hmem x (by simp [hx])) c hc

theorem cfb_decrypt_mem_lt (blocks : List Nat) : ∀ key feedback : Nat,
    (∀ b ∈ blocks, b < 2 ^ 128) →
    ∀ p ∈ cfb_decrypt blocks key feedback, p < 2 ^ 128 := by
  induction blocks with
  | nil => intro key feedback _ p hp; simp [cfb_decrypt] at hp
  | cons b bs ih =>
    intro key feedback hmem p hp
    simp only [cfb_decrypt, List.mem_cons] at hp
    rcases hp with hp | hp
    · exact hp ▸ Nat.xor_lt_two_pow (hmem b (by simp)) (encrypt_block_lt _ _)
    · exact ih key b (fun x hx => hmem x (by simp [hx])) p hp

/-! XOR cancellation shapes used by the error-propagation analysis. -/

theorem xor_left_comm (a b c : Nat) : a ^^^ (b ^^^ c) = b ^^^ (a ^^^ c) := by
  rw [← Nat.xor_assoc, Nat.xor_comm a b, Nat.xor_assoc]

theorem xor_noise_cancel (x y t : Nat) : (x ^^^ y) ^^^ (x ^^^ (y ^^^ t)) = t := by
  rw [Nat.xor_assoc, xor_left_comm y x, ← Nat.xor_assoc x x, Nat.xor_self,
    Nat.zero_xor, ← Nat.xor_assoc, Nat.xor_self, Nat.zero_xor]

theorem xor_noise_cancel' (x k t : Nat) : (x ^^^ k) ^^^ ((x ^^^ t) ^^^ k) = t := by
  rw [Nat.xor_assoc x t k, Nat.xor_comm t k]
  exact xor_noise_cancel x k t

theorem bitCount_two_pow_flip : bitCount (1 <<< BIT_TO_FLIP) = 1 := by rfl

/-! Shape of the analyzers on inputs of arbitrary length: a report is
produced exactly when at least two blocks are supplied; the Python code
raises `IndexError` (here `none`) below two blocks and silently ignores
any blocks beyond the second when corrupting. -/

theorem analyze_cbc_isSome (key iv : Nat) (bs : List Nat) :
    ((analyze_cbc key iv bs).isSome = true) ↔ 2 ≤ bs.length := by
  match bs with
  | [] =>
    rw [show analyze_cbc key iv [] = none from rfl]
    simp
  | [b] =>
    rw [show analyze_cbc key iv [b] = none from rfl]
    simp
  | b1 :: b2 :: rest =>
    rw [show (analyze_cbc key iv (b1 :: b2 :: rest)).isSome = true from rfl]
    simp only [List.length_cons, true_iff]
    omega

theorem analyze_cfb_isSome (key iv : Nat) (bs : List Nat) :
    ((analyze_cfb key iv bs).isSome = true) ↔ 2 ≤ bs.length := by
  match bs with
  | [] =>
    rw [show analyze_cfb key iv [] = none from rfl]
    simp
  | [b] =>
    rw [show analyze_cfb key iv [b] = none from rfl]
    simp
  | b1 :: b2 :: rest =>
    rw [show (analyze_cfb key iv (b1 :: b2 :: rest)).isSome = true from rfl]
    simp only [List.length_cons, true_iff]
    omega

/-! Facts about the UTF-8 model and `to_block`. -/

theorem char_toNat_lt (c : Char) : c.toNat < 1114112 := by
  rcases c.valid with h | h
  · exact Nat.lt_trans h (by norm_num)
  · exact h.2

theorem utf8Bytes_lt (c : Char) : ∀ x ∈ utf8Bytes c, x < 256 := by
  intro x hx
  have hc := char_toNat_lt c
  have h256 : ∀ a b : Nat, a < 256 → b < 256 → a ||| b < 256 := by
    intro a b ha hb
    have h8 : a ||| b < 2 ^ 8 := Nat.or_lt_two_pow ha hb
    simpa using h8
  have hand : ∀ m : Nat, 128 ||| (m &&& 63) < 256 := fun m =>
    h256 _ _ (by norm_num)
      (Nat.lt_of_le_of_lt Nat.and_le_right (by norm_num))
  simp only [utf8Bytes] at hx
  split at hx
  · simp only [List.mem_singleton] at hx
    omega
  · split at hx
    · have h6 : c.toNat >>> 6 < 256 := by
        rw [Nat.shiftRight_eq_div_pow]
        omega
      simp only [List.mem_cons, List.not_mem_nil, or_false] at hx
      rcases hx with hx | hx
      · exact hx ▸ h256 _ _ (by norm_num) h6
      · exact hx ▸ hand _
    · split at hx
      · have h12 : c.toNat >>> 12 < 256 := by
          rw [Nat.shiftRight_eq_div_pow]
          omega
        simp only [List.mem_cons, List.not_mem_nil, or_false] at hx
        rcases hx with hx | hx | hx
        · exact hx ▸ h256 _ _ (by norm_num) h12
        · exact hx ▸ hand _
        · exact hx ▸ hand _
      · have h18 : c.toNat >>> 18 < 256 := by
          rw [Nat.shiftRight_eq_div_pow]
          omega
        simp only [List.mem_cons, List.not_mem_nil, or_false] at hx
        rcases hx with hx | hx | hx | hx
        · exact hx ▸ h256 _ _ (by norm_num) h18
        · exact hx ▸ hand _
        · exact hx ▸ hand _
        · exact hx ▸ hand _

theorem encodeUtf8_lt (text : List Char) : ∀ x ∈ encodeUtf8 text, x < 256 := by
  induction text with
  | nil => intro x hx; simp [encodeUtf8] at hx
  | cons c cs ih =>
    intro x hx
    simp only [encodeUtf8, List.foldr_cons, List.mem_append] at hx
    rcases hx with hx | hx
    · exact utf8Bytes_lt c x hx
    · exact ih x hx

theorem fromBytesBE_foldl_lt (bs : List Nat) : ∀ acc : Nat,
    (∀ x ∈ bs, x < 256) →
    bs.foldl (fun acc b => acc * 256 + b) acc < (acc + 1) * 256 ^ bs.length := by
  induction bs with
  | nil =>
    intro acc _
    simp
  | cons b bs ih =>
    intro acc h
    simp only [List.foldl_cons, List.length_cons]
    have hb : b < 256 := h b (by simp)
    calc bs.foldl (fun acc b => acc * 256 + b) (acc * 256 + b)
        < (acc * 256 + b + 1) * 256 ^ bs.length :=
          ih _ (fun x hx => h x (by simp [hx]))
      _ ≤ ((acc + 1) * 256) * 256 ^ bs.length := by
          apply Nat.mul_le_mul_right
          omega
      _ = (acc + 1) * 256 ^ (bs.length + 1) := by ring

theorem fromBytesBE_lt (bs : List Nat) (h : ∀ x ∈ bs, x < 256) :
    fromBytesBE bs < 256 ^ bs.length := by
  have := fromBytesBE_foldl_lt bs 0 h
  simpa [fromBytesBE] using this

/-! Unrolling of the fold inside `cfb_decrypt_spec`. -/

theorem cfb_spec_fold (blocks : List Nat) : ∀ (key iv : Nat) (acc : List Nat),
    (blocks.foldl
      (fun (st : List Nat × Nat) c =>
        (st.1 ++ [c ^^^ encrypt_block st.2 key], c)) (acc, iv)).1
      = acc ++ cfb_decrypt blocks key iv := by
  induction blocks with
  | nil => intro key iv acc; simp [cfb_decrypt]
  | cons c rest ih =>
    intro key iv acc
    simp only [List.foldl_cons]
    rw [ih]
    simp [cfb_decrypt]

/-! Claim theorems. -/

/-- Claim C1: for every key `k` and every block `b` with `0 <= b < 2^128`,
`decrypt_block (encrypt_block b k) k = b`; `encrypt_block` and
`decrypt_block` are mutual inverses on 128-bit blocks for every
(block, key) pair. -/
theorem feistel_mutual_inverse (key b : Nat) (hk : key < 2 ^ 128)
    (hb : b < 2 ^ 128) :
    decrypt_block (encrypt_block b key) key = b ∧
    encrypt_block (decrypt_block b key) key = b :=
  ⟨dec_enc b key hb, enc_dec b key hb⟩

/-- Witness for C1 at block 5 and key 7. -/
theorem feistel_mutual_inverse_witness :
    decrypt_block (encrypt_block 5 7) 7 = 5 ∧
    encrypt_block (decrypt_block 5 7) 7 = 5 :=
  feistel_mutual_inverse 7 5 (by norm_num) (by norm_num)

/-- Claim C2: for every key, IV and non-empty sequence of blocks below
2^128, CBC and CFB decryption invert the corresponding encryption. -/
theorem mode_roundtrip (key iv : Nat) (blocks : List Nat)
    (hk : key < 2 ^ 128) (hiv : iv < 2 ^ 128)
    (hbs : ∀ b ∈ blocks, b < 2 ^ 128) (hne : blocks ≠ []) :
    cbc_decrypt (cbc_encrypt blocks key iv) key iv = blocks ∧
    cfb_decrypt (cfb_encrypt blocks key iv) key iv = blocks :=
  ⟨cbc_roundtrip_aux blocks key iv hiv hbs, cfb_roundtrip_aux blocks key iv⟩

/-- Witness for C2 on the two-block sequence `[1, 2]`, key 3, IV 4. -/
theorem mode_roundtrip_witness :
    cbc_decrypt (cbc_encrypt [1, 2] 3 4) 3 4 = [1, 2] ∧
    cfb_decrypt (cfb_encrypt [1, 2] 3 4) 3 4 = [1, 2] :=
  mode_roundtrip 3 4 [1, 2] (by norm_num) (by norm_num) (by decide) (by decide)

/-- Claim C3: on every two-block 128-bit input, `analyze_cbc` reports the
second decrypted block differing from the clean one in exactly one bit
(`p2_diff = 1`); moreover, for any two-block ciphertext, flipping bit 17
of the first block changes the second decrypted block by exactly an XOR
with `2^17`, so the flipped position is the only difference. -/
theorem cbc_error_propagation_second_block (key iv p1 p2 : Nat)
    (hk : key < 2 ^ 128) (hiv : iv < 2 ^ 128)
    (h1 : p1 < 2 ^ 128) (h2 : p2 < 2 ^ 128) :
    (analyze_cbc key iv [p1, p2]).map (fun r => r.p2_diff) = some 1 ∧
    ∀ c0 c1 : Nat,
      (cbc_decrypt [flip_bit c0 BIT_TO_FLIP, c1] key iv).get? 1 =
        ((cbc_decrypt [c0, c1] key iv).get? 1).map
          (fun q => q ^^^ 1 <<< BIT_TO_FLIP) := by
  constructor
  · show some (bitCount
      ((decrypt_block (encrypt_block (p2 ^^^ encrypt_block (p1 ^^^ iv) key) key)
          key ^^^ encrypt_block (p1 ^^^ iv) key) ^^^
        (decrypt_block (encrypt_block (p2 ^^^ encrypt_block (p1 ^^^ iv) key) key)
          key ^^^ (encrypt_block (p1 ^^^ iv) key ^^^ 1 <<< BIT_TO_FLIP)))) = some 1
    rw [xor_noise_cancel, bitCount_two_pow_flip]
  · intro c0 c1
    show some (decrypt_block c1 key ^^^ (c0 ^^^ 1 <<< BIT_TO_FLIP)) =
      some (decrypt_block c1 key ^^^ c0 ^^^ 1 <<< BIT_TO_FLIP)
    exact congrArg some (Nat.xor_assoc _ _ _).symm

/-- Witness for C3 at key 0, IV 0 and plaintext blocks `[0, 0]`. -/
theorem cbc_error_propagation_second_block_witness :
    (analyze_cbc 0 0 [0, 0]).map (fun r => r.p2_diff) = some 1 :=
  (cbc_error_propagation_second_block 0 0 0 0 (by norm_num) (by norm_num)
    (by norm_num) (by norm_num)).1

/-- Claim C4: on every two-block 128-bit input, `analyze_cfb` reports the
first decrypted block differing from the clean one in exactly one bit
(`p1_diff = 1`); moreover, for any two-block ciphertext, flipping bit 17
of the first block changes the first decrypted block by exactly an XOR
with `2^17`, so the flipped position is the only difference. -/
theorem cfb_error_propagation_first_block (key iv p1 p2 : Nat)
    (hk : key < 2 ^ 128) (hiv : iv < 2 ^ 128)
    (h1 : p1 < 2 ^ 128) (h2 : p2 < 2 ^ 128) :
    (analyze_cfb key iv [p1, p2]).map (fun r => r.p1_diff) = some 1 ∧
    ∀ c0 c1 : Nat,
      (cfb_decrypt [flip_bit c0 BIT_TO_FLIP, c1] key iv).get? 0 =
        ((cfb_decrypt [c0, c1] key iv).get? 0).map
          (fun q => q ^^^ 1 <<< BIT_TO_FLIP) := by
  constructor
  · show some (bitCount
      (((p1 ^^^ encrypt_block iv key) ^^^ encrypt_block iv key) ^^^
        (((p1 ^^^ encrypt_block iv key) ^^^ 1 <<< BIT_TO_FLIP) ^^^
          encrypt_block iv key))) = some 1
    rw [xor_noise_cancel', bitCount_two_pow_flip]
  · intro c0 c1
    show some ((c0 ^^^ 1 <<< BIT_TO_FLIP) ^^^ encrypt_block iv key) =
      some ((c0 ^^^ encrypt_block iv key) ^^^ 1 <<< BIT_TO_FLIP)
    exact congrArg some (by
      rw [Nat.xor_assoc, Nat.xor_assoc,
        Nat.xor_comm (1 <<< BIT_TO_FLIP) (encrypt_block iv key)])

/-- Witness for C4 at key 0, IV 0 and plaintext blocks `[0, 0]`. -/
theorem cfb_error_propagation_first_block_witness :
    (analyze_cfb 0 0 [0, 0]).map (fun r => r.p1_diff) = some 1 :=
  (cfb_error_propagation_first_block 0 0 0 0 (by norm_num) (by norm_num)
    (by norm_num) (by norm_num)).1

/-- Claim C5: `cfb_decrypt` implements exactly the algorithm of the
specification using the encrypt direction of the block primitive: with
feedback initialized to the IV, each output is the ciphertext block XOR
`encrypt_block feedback key`, and the feedback becomes that ciphertext
block; both `cfb_decrypt` and `cfb_decrypt_spec` are built from
`encrypt_block` alone and `decrypt_block` appears in neither. -/
theorem cfb_decrypt_encrypt_direction (blocks : List Nat) (key iv : Nat) :
    cfb_decrypt blocks key iv = cfb_decrypt_spec blocks key iv ∧
    ∀ c rest, cfb_decrypt (c :: rest) key iv =
      (c ^^^ encrypt_block iv key) :: cfb_decrypt rest key c := by
  constructor
  · simp only [cfb_decrypt_spec]
    rw [cfb_spec_fold blocks key iv]
    simp
  · intro c rest
    rfl

/-- Counterexample for C6: invoked with three blocks, both analyzers
return a report rather than signalling any length error. -/
theorem analyzer_extra_blocks_counterexample :
    (analyze_cbc 0 0 [0, 0, 0]).isSome = true ∧
    (analyze_cfb 0 0 [0, 0, 0]).isSome = true :=
  ⟨rfl, rfl⟩

/-- Claim C6 as amended: the analyzers perform no two-block check; they
produce a report exactly when at least two blocks are supplied (silently
ignoring any blocks beyond the second), and on fewer than two blocks
they fail with an index error (modelled by `none`), not with a
`SequenceLengthMismatch` report to the caller. -/
theorem analyzer_reports_iff_two_or_more (key iv : Nat) (bs : List Nat) :
    ((analyze_cbc key iv bs).isSome = true ↔ 2 ≤ bs.length) ∧
    ((analyze_cfb key iv bs).isSome = true ↔ 2 ≤ bs.length) :=
  ⟨analyze_cbc_isSome key iv bs, analyze_cfb_isSome key iv bs⟩

/-- Counterexample for C7: with round count 0 or -1, `derive_subkeys`
returns the empty list normally instead of signalling an error. -/
theorem derive_subkeys_nonpositive_counterexample :
    derive_subkeys 0 0 = [] ∧ derive_subkeys 0 (-1) = [] :=
  ⟨rfl, rfl⟩

/-- Claim C7 as amended: for every key and every round count at most 0,
`derive_subkeys` silently returns the empty subkey schedule (Python
`range` of a non-positive bound is empty); no `EmptyKeySchedule` error
exists in the code. -/
theorem derive_subkeys_nonpositive_empty (key : Nat) (rounds : Int)
    (h : rounds ≤ 0) : derive_subkeys key rounds = [] := by
  simp only [derive_subkeys]
  rw [Int.toNat_of_nonpos h]
  rfl

/-- Witness for the amended C7 at key 5 and round count -2. -/
theorem derive_subkeys_nonpositive_empty_witness : derive_subkeys 5 (-2) = [] :=
  derive_subkeys_nonpositive_empty 5 (-2) (by norm_num)

/-- Claim C8: for every key and IV, the four mode wrappers map the empty
block sequence to the empty sequence without error (their Lean models
are total functions and return `[]`). -/
theorem empty_sequence_noop (key iv : Nat) :
    cbc_encrypt [] key iv = [] ∧ cbc_decrypt [] key iv = [] ∧
    cfb_encrypt [] key iv = [] ∧ cfb_decrypt [] key iv = [] :=
  ⟨rfl, rfl, rfl, rfl⟩

/-- Claim C9: every block value produced by `encrypt_block`,
`decrypt_block` and the four mode wrappers lies in `[0, 2^128)` whenever
the input blocks, key and IV do. -/
theorem normalized_block_values (key iv : Nat) (blocks : List Nat)
    (hk : key < 2 ^ 128) (hiv : iv < 2 ^ 128)
    (hbs : ∀ b ∈ blocks, b < 2 ^ 128) :
    (∀ b k : Nat, b < 2 ^ 128 → k < 2 ^ 128 →
      encrypt_block b k < 2 ^ 128 ∧ decrypt_block b k < 2 ^ 128) ∧
    (∀ c ∈ cbc_encrypt blocks key iv, c < 2 ^ 128) ∧
    (∀ p ∈ cbc_decrypt blocks key iv, p < 2 ^ 128) ∧
    (∀ c ∈ cfb_encrypt blocks key iv, c < 2 ^ 128) ∧
    (∀ p ∈ cfb_decrypt blocks key iv, p < 2 ^ 128) :=
  ⟨fun b k _ _ => ⟨encrypt_block_lt b k, decrypt_block_lt b k⟩,
    cbc_encrypt_mem_lt blocks key iv,
    cbc_decrypt_mem_lt blocks key iv hiv hbs,
    cfb_encrypt_mem_lt blocks key iv hbs,
    cfb_decrypt_mem_lt blocks key iv hbs⟩

/-- Witness for C9: the engine keeps block 0 under key 0 inside the
128-bit range. -/
theorem normalized_block_values_witness :
    encrypt_block 0 0 < 2 ^ 128 ∧ decrypt_block 0 0 < 2 ^ 128 :=
  (normalized_block_values 0 0 [0] (by norm_num) (by norm_num)
    (by decide)).1 0 0 (by norm_num) (by norm_num)

/-- Claim C10: `to_block` fails (Python raises `ValueError`, modelled by
`none`) exactly when the UTF-8 encoding of the text exceeds 16 bytes,
and every block it returns is below `2^128`. -/
theorem to_block_spec (text : List Char) :
    (to_block text = none ↔ 16 < (encodeUtf8 text).length) ∧
    ∀ b : Nat, to_block text = some b → b < 2 ^ 128 := by
  constructor
  · by_cases h : (encodeUtf8 text).length > 16
    · simp only [to_block, if_pos h]
      simpa using h
    · simp only [to_block, if_neg h]
      simp [h]
  · intro b hb
    simp only [to_block] at hb
    by_cases h : (encodeUtf8 text).length > 16
    · rw [if_pos h] at hb
      cases hb
    · rw [if_neg h] at hb
      have hmem : ∀ x ∈ encodeUtf8 text ++
          List.replicate (16 - (encodeUtf8 text).length) 0, x < 256 := by
        intro x hx
        rcases List.mem_append.mp hx with hx | hx
        · exact encodeUtf8_lt text x hx
        · have := List.eq_of_mem_replicate hx
          omega
      have hlen : (encodeUtf8 text ++
          List.replicate (16 - (encodeUtf8 text).length) 0).length = 16 := by
        simp only [List.length_append, List.length_replicate]
        omega
      have hfb := fromBytesBE_lt _ hmem
      rw [hlen] at hfb
      have h16 : (256 : Nat) ^ 16 = 2 ^ 128 := by norm_num
      rw [h16] at hfb
      injection hb with hb'
      rw [← hb']
      exact hfb

/-- Witness for C10: `to_block` on the one-character text `a`. -/
theorem to_block_spec_witness : (97 * 256 ^ 15 : Nat) < 2 ^ 128 :=
  (to_block_spec ['a']).2 (97 * 256 ^ 15) (by rfl)
